import Mathlib

/-!
Verification of the resilient inventory-update service described by the
KTPM-BTL repository.  The repository itself contains only k6 load-test
scripts and a design document; the service under test (VersionedLedgerStore,
InventoryUpdateService, CircuitBreaker, RetryPolicy, ResilientVendorClient)
is specified by spec.md and modelled here from that specification.  The
helper functions that do live in the scripts (the naive PUT status check and
randomUniqueIds) are embedded directly from the JavaScript source.
-/

namespace KTPM

/-! ## VersionedLedgerStore -/

/-- Modelled from the spec: an Item of the warehouse ledger (spec §3):
identifier externally assigned, quantity an integer kept non-negative by the
service, and a monotonic version starting at 1. -/
structure Item where
  quantity : Int
  version : Nat
deriving DecidableEq, Repr

/-- Modelled from the spec: the error taxonomy of spec §7. -/
inductive LedgerError where
  | NotFound
  | VersionConflict
  | InvalidQuantity
  | UpdateExhausted
deriving DecidableEq, Repr

/-- Modelled from the spec: the persistence backend, a map from item id to
the stored item; the repository does not contain it (spec §6 lists it as an
excluded collaborator accessed through the §4.1 contract). -/
def Store : Type := Nat → Option Item

/-- Pointwise update of a store at one id. -/
def Store.upd (s : Store) (id : Nat) (it : Item) : Store :=
  fun j => if j = id then some it else s j

/-- Modelled from the spec: `conditionalWrite(id, newQuantity, expectedVersion)`
of spec §4.1: fails with NotFound when the id is absent, with VersionConflict
when the stored version differs from the expected one, and otherwise
atomically sets the quantity and increments the version by 1, returning the
updated store and the new version. -/
def conditionalWrite (s : Store) (id : Nat) (newQty : Int) (expected : Nat) :
    Except LedgerError (Store × Nat) :=
  match s id with
  | none => .error .NotFound
  | some it =>
      if it.version = expected then
        .ok (s.upd id ⟨newQty, it.version + 1⟩, it.version + 1)
      else
        .error .VersionConflict

/-! ## InventoryUpdateService

Concurrent interference with an update is modelled by an environment
function: between the read and the conditional write of each cycle the rest
of the system may transform the store arbitrarily. -/

/-- Modelled from the spec: one read/compute/conditionalWrite cycle of
`increment(id, delta)` (spec §4.2): read the current (quantity, version),
reject with InvalidQuantity when the new quantity would be negative without
issuing any write, and otherwise issue the conditional write against the
store as interfered with by the environment. -/
def incrementCycle (env : Store → Store) (s : Store) (id : Nat) (delta : Int) :
    Except LedgerError (Store × Nat) :=
  match s id with
  | none => .error .NotFound
  | some it =>
      if it.quantity + delta < 0 then .error .InvalidQuantity
      else conditionalWrite (env s) id (it.quantity + delta) it.version

/-- Modelled from the spec: `incrementNaive(id, delta)` (spec §4.2): exactly
one read/compute/write cycle, surfacing VersionConflict directly. -/
def incrementNaive (env : Store → Store) (s : Store) (id : Nat) (delta : Int) :
    Except LedgerError (Store × Nat) :=
  incrementCycle env s id delta

/-- Modelled from the spec: the retry loop of `incrementAtomic` (spec §4.2),
returning the result together with the number of cycles performed.  The fuel
is the number of cycles still allowed; each cycle reads, checks the quantity,
and issues the conditional write against the environment-interfered store; on
VersionConflict the cycle is retried with one unit of fuel less, and
exhausted fuel surfaces UpdateExhausted. -/
def incrementAtomicAux (env : Nat → Store → Store) (id : Nat) (delta : Int) :
    Nat → Nat → Store → Except LedgerError (Store × Nat) × Nat
  | 0, _, _ => (.error .UpdateExhausted, 0)
  | fuel + 1, cycle, s =>
      match s id with
      | none => (.error .NotFound, 1)
      | some it =>
          if it.quantity + delta < 0 then (.error .InvalidQuantity, 1)
          else
            match conditionalWrite (env cycle s) id (it.quantity + delta) it.version with
            | .ok r => (.ok r, 1)
            | .error .VersionConflict =>
                match incrementAtomicAux env id delta fuel (cycle + 1) (env cycle s) with
                | (r, n) => (r, n + 1)
            | .error e => (.error e, 1)

/-- Modelled from the spec: the default retry bound N = 5 of
`incrementAtomic` (spec §4.2). -/
def atomicRetryBound : Nat := 5

/-- Modelled from the spec: `incrementAtomic(id, delta)` (spec §4.2):
retries the read/compute/conditionalWrite cycle up to 5 times on
VersionConflict before surfacing UpdateExhausted. -/
def incrementAtomic (env : Nat → Store → Store) (s : Store) (id : Nat) (delta : Int) :
    Except LedgerError (Store × Nat) :=
  (incrementAtomicAux env id delta atomicRetryBound 0 s).1

/-- Number of read/compute/conditionalWrite cycles an `incrementAtomic`
call performs. -/
def incrementAtomicCycles (env : Nat → Store → Store) (s : Store) (id : Nat) (delta : Int) :
    Nat :=
  (incrementAtomicAux env id delta atomicRetryBound 0 s).2

/-! ## Test-script helpers embedded from the JavaScript source -/

/-- Embedded from src/unnamed/part_001 line 63: the check applied to the
naive PUT response, `(r) => r.status === 200 || r.status === 409`. -/
def naivePutCheck (status : Nat) : Bool :=
  status == 200 || status == 409

/-! ## RetryPolicy -/

/-- Modelled from the spec: the outcome of RetryPolicy.execute (spec §4.4):
overall success with the 1-based index of the succeeding attempt,
RetryExhaustedError carrying the attempt count and the last underlying
error, or an immediate abort on a non-retriable error. -/
inductive RetryResult where
  | success (attempts : Nat)
  | exhausted (attempts : Nat) (lastError : Nat)
  | aborted (attempts : Nat) (err : Nat)
deriving DecidableEq, Repr

/-- Modelled from the spec: the attempt loop of RetryPolicy.execute
(spec §4.4).  The operation maps a 1-based attempt index to its outcome
(an error code or success); budget is the number of attempts still allowed
and k the index of the attempt about to run.  A retriable error with budget
left retries; the last allowed attempt failing retriably produces
RetryExhaustedError with the attempt count and that error; a non-retriable
error aborts immediately. -/
def executeAux (op : Nat → Except Nat Unit) (retriable : Nat → Bool) :
    Nat → Nat → RetryResult
  | 0, k => .exhausted (k - 1) 0
  | budget + 1, k =>
      match op k with
      | .ok _ => .success k
      | .error e =>
          if retriable e then
            match budget with
            | 0 => .exhausted k e
            | b + 1 => executeAux op retriable (b + 1) (k + 1)
          else .aborted k e

/-- Modelled from the spec: RetryPolicy.execute (spec §4.4): invoke the
operation up to maxAttempts times, starting at attempt 1. -/
def RetryPolicy.execute (op : Nat → Except Nat Unit) (retriable : Nat → Bool)
    (maxAttempts : Nat) : RetryResult :=
  executeAux op retriable maxAttempts 1

/-- A store all of whose items carry a non-negative quantity (spec §3). -/
def Store.nonneg (s : Store) : Prop :=
  ∀ j it, s j = some it → 0 ≤ it.quantity

/-- Modelled from the spec: the un-jittered backoff delay before attempt k
(spec §4.4), min(baseDelay * 2^(k-2), maxDelay). -/
def rawDelay (baseDelay maxDelay : ℚ) (k : Nat) : ℚ :=
  min (baseDelay * 2 ^ (k - 2)) maxDelay

/-- Modelled from the spec: the jittered backoff delay before attempt k
(spec §4.4), the un-jittered delay scaled by the jitter factor drawn from
the half-open interval from 1/2 to 3/2. -/
def backoffDelay (baseDelay maxDelay : ℚ) (k : Nat) (jitter : ℚ) : ℚ :=
  rawDelay baseDelay maxDelay k * jitter

/-! ## CircuitBreaker -/

/-- Modelled from the spec: the breaker states of spec §3 and §4.3. -/
inductive BState where
  | Closed
  | Open
  | HalfOpen
deriving DecidableEq, Repr

/-- Modelled from the spec: the BreakerState of spec §3: configuration
(failureThreshold, resetTimeout), current state, consecutive-failure
counter, opened-at timestamp and the half-open trial flag. -/
structure Breaker where
  failureThreshold : Nat
  resetTimeout : Nat
  state : BState
  failures : Nat
  openedAt : Nat
  trialInFlight : Bool
deriving DecidableEq, Repr

/-- Modelled from the spec: the breaker gate consulted when a call arrives
(spec §4.3): Closed admits the call; Open rejects it with CircuitOpenError
unless the cool-down has elapsed, in which case the breaker moves to
HalfOpen and admits the call as the single trial; HalfOpen rejects further
callers while a trial is in flight.  Returns the updated breaker and
whether the call was admitted. -/
def admitCall (b : Breaker) (now : Nat) : Breaker × Bool :=
  match b.state with
  | .Closed => (b, true)
  | .Open =>
      if b.resetTimeout ≤ now - b.openedAt then
        ({ b with state := .HalfOpen, trialInFlight := true }, true)
      else (b, false)
  | .HalfOpen =>
      if b.trialInFlight then (b, false)
      else ({ b with trialInFlight := true }, true)

/-- Modelled from the spec: recording the outcome of an admitted downstream
attempt (spec §4.3): while Closed a success resets the failure counter and
a failure increments it, opening the breaker with openedAt = now when the
threshold is reached; a HalfOpen trial success closes the breaker with the
counter reset to 0, a trial failure re-opens it with a fresh openedAt. -/
def recordOutcome (b : Breaker) (now : Nat) (ok : Bool) : Breaker :=
  match b.state with
  | .Closed =>
      if ok then { b with failures := 0 }
      else
        if b.failureThreshold ≤ b.failures + 1 then
          { b with state := .Open, failures := b.failures + 1, openedAt := now }
        else { b with failures := b.failures + 1 }
  | .HalfOpen =>
      if ok then { b with state := .Closed, failures := 0, trialInFlight := false }
      else { b with state := .Open, openedAt := now, trialInFlight := false }
  | .Open => b

/-! ## ResilientVendorClient -/

/-- Modelled from the spec: the observable outcome of fetchPrice (spec
§4.5): the number of downstream attempts made, overall success, and the
breaker state observed at call end. -/
structure FetchOutcome where
  attempts : Nat
  ok : Bool
  finalState : BState
deriving DecidableEq, Repr

/-- Modelled from the spec: the RetryPolicy attempt loop as composed with
the breaker inside fetchPrice (spec §4.5): each attempt's outcome is
reported to the breaker, and the policy never retries once the breaker is
Open.  The downstream call is modelled by its per-attempt outcome; budget
is the remaining attempt allowance and k the 1-based index of the attempt
about to run.  Returns the breaker after the last attempt, the number of
the last attempt made, and overall success. -/
def retryLoopBreaker (down : Nat → Bool) (now : Nat) :
    Nat → Nat → Breaker → Breaker × Nat × Bool
  | 0, k, b => (b, k - 1, false)
  | budget + 1, k, b =>
      let ok := down k
      let b' := recordOutcome b now ok
      if ok then (b', k, true)
      else
        match budget with
        | 0 => (b', k, false)
        | b2 + 1 =>
            if b'.state = .Open then (b', k, false)
            else retryLoopBreaker down now (b2 + 1) (k + 1) b'

/-- Modelled from the spec: ResilientVendorClient.fetchPrice (spec §4.5):
consult the breaker gate; a rejected call returns with zero downstream
attempts; an admitted call runs the retry loop with the policy's attempt
budget capped to 1 while the breaker is HalfOpen. -/
def fetchPrice (b : Breaker) (now : Nat) (maxAttempts : Nat) (down : Nat → Bool) :
    Breaker × FetchOutcome :=
  let gate := admitCall b now
  if gate.2 then
    let budget := if gate.1.state = .HalfOpen then 1 else maxAttempts
    let r := retryLoopBreaker down now budget 1 gate.1
    (r.1, ⟨r.2.1, r.2.2, r.1.state⟩)
  else (gate.1, ⟨0, false, gate.1.state⟩)

/-! ## Interleaving semantics of concurrent incrementAtomic(id, +1) calls

Each thread runs incrementAtomic(id, +1) against the shared cell of the
store holding the targeted item.  A thread alternates between reading a
snapshot (quantity, version) and attempting the conditional write; the
conditional write succeeds exactly when the snapshot version still equals
the stored version, in which case it installs the snapshot quantity plus 1
and bumps the version — the compare-and-set of spec §4.1 driven by the
retry loop of spec §4.2. -/

/-- Modelled from the spec: how a single incrementAtomic(id, +1) call ends:
a committed write, UpdateExhausted after the retry bound, or
InvalidQuantity. -/
inductive CallResult where
  | committedWrite
  | retriesExhausted
  | invalidQty
deriving DecidableEq, Repr

/-- Modelled from the spec: the local state of one in-flight
incrementAtomic(id, +1) call: about to read with the given remaining fuel,
about to attempt the conditional write with a held snapshot, or finished. -/
inductive TState where
  | running (fuel : Nat)
  | casing (fuel : Nat) (snapVer : Nat) (snapQty : Int)
  | finished (r : CallResult)
deriving DecidableEq, Repr

/-- A configuration of the interleaving machine: the shared item cell
(quantity and version of the targeted id) and the list of thread states. -/
structure LConfig where
  qty : Int
  ver : Nat
  threads : List TState
deriving DecidableEq, Repr

/-- Modelled from the spec: one interleaved step of the concurrent
incrementAtomic(id, +1) machine.  A thread in the middle of the list acts:
it reads a snapshot (rejecting with InvalidQuantity when the new quantity
would be negative), attempts the conditional write (which succeeds exactly
when its snapshot version matches the stored version, installing snapshot
quantity + 1 and bumping the version, and otherwise costs one unit of
fuel), or surfaces UpdateExhausted when its fuel is spent. -/
inductive CStep : LConfig → LConfig → Prop where
  | read (q : Int) (v : Nat) (l₁ l₂ : List TState) (f : Nat)
      (hq : ¬ q + 1 < 0) :
      CStep ⟨q, v, l₁ ++ .running (f + 1) :: l₂⟩ ⟨q, v, l₁ ++ .casing f v q :: l₂⟩
  | readInvalid (q : Int) (v : Nat) (l₁ l₂ : List TState) (f : Nat)
      (hq : q + 1 < 0) :
      CStep ⟨q, v, l₁ ++ .running (f + 1) :: l₂⟩
        ⟨q, v, l₁ ++ .finished .invalidQty :: l₂⟩
  | exhaust (q : Int) (v : Nat) (l₁ l₂ : List TState) :
      CStep ⟨q, v, l₁ ++ .running 0 :: l₂⟩
        ⟨q, v, l₁ ++ .finished .retriesExhausted :: l₂⟩
  | casOk (q : Int) (v : Nat) (l₁ l₂ : List TState) (f : Nat) (sq : Int) :
      CStep ⟨q, v, l₁ ++ .casing f v sq :: l₂⟩
        ⟨sq + 1, v + 1, l₁ ++ .finished .committedWrite :: l₂⟩
  | casFail (q : Int) (v : Nat) (l₁ l₂ : List TState) (f : Nat) (sv : Nat) (sq : Int)
      (hv : sv ≠ v) :
      CStep ⟨q, v, l₁ ++ .casing f sv sq :: l₂⟩ ⟨q, v, l₁ ++ .running f :: l₂⟩

/-- The initial configuration: the item holds (q0, v0) and n callers each
start an incrementAtomic(id, +1) with the default retry bound. -/
def initLConfig (q0 : Int) (v0 : Nat) (n : Nat) : LConfig :=
  ⟨q0, v0, List.replicate n (.running atomicRetryBound)⟩

/-- Number of threads that finished with a committed write. -/
def countCommitted (ts : List TState) : Nat :=
  ts.countP (fun t => decide (t = .finished .committedWrite))

/-- The machine invariant behind the no-lost-updates property: the stored
quantity accounts for exactly the committed writers, no thread has failed
on InvalidQuantity, and every held snapshot has a version at most the
stored one which, when still current, carries the stored quantity. -/
def LInv (q0 : Int) (c : LConfig) : Prop :=
  c.qty = q0 + (countCommitted c.threads : Int) ∧
  (∀ t ∈ c.threads, t ≠ .finished .invalidQty) ∧
  (∀ f sv sq, .casing f sv sq ∈ c.threads →
    sv ≤ c.ver ∧ (sv = c.ver → sq = c.qty))

/-! ## randomUniqueIds embedded from the JavaScript source -/

/-- Embedded from src/unnamed/part_001 lines 19-27 (identical in
src/atomic_test.js lines 118-126): the loop of randomUniqueIds.  The pool
is the insertion-ordered set of ids drawn so far; each draw produces
Math.floor(Math.random() * maxId) + 1, modelled as draw step + 1 where the
raw draws are a stream of integers below maxId; fuel bounds the number of
draws so that the unbounded while loop is total, and running out of fuel
before the pool reaches the requested count yields none. -/
def randomUniqueIdsAux (draw : Nat → Nat) (count maxId : Nat) :
    Nat → Nat → List Nat → Option (List Nat)
  | 0, _, pool => if count ≤ pool.length then some pool else none
  | f + 1, step, pool =>
      if count ≤ pool.length then some pool
      else
        randomUniqueIdsAux draw count maxId f (step + 1)
          (if draw step + 1 ∈ pool then pool else pool ++ [draw step + 1])

/-- Embedded from src/unnamed/part_001 lines 19-27: randomUniqueIds(count,
maxId), starting from the empty pool and the first draw. -/
def randomUniqueIds (draw : Nat → Nat) (count maxId : Nat) (fuel : Nat) :
    Option (List Nat) :=
  randomUniqueIdsAux draw count maxId fuel 0 []

/-! ## Concrete instances used to exercise the model -/

/-- A store whose item 1 holds quantity 10 at version 1. -/
def storeW : Store :=
  fun j => if j = 1 then some ⟨10, 1⟩ else none

/-- An environment that bumps the version of item 1 between every read and
conditional write, forcing a conflict on every cycle. -/
def envBumpW : Nat → Store → Store :=
  fun _ t j =>
    if j = 1 then
      match t 1 with
      | some it => some ⟨it.quantity, it.version + 1⟩
      | none => none
    else t j

end KTPM

namespace KTPM

/-! ## Theorems: C3, C5, C9 -/

/-- C3: conditionalWrite fails with VersionConflict iff the stored version
differs from the expected one; otherwise it sets the quantity, increments the
version by exactly 1 and returns the new version, leaving every other id
untouched — so a committed mutation always bumps the version. -/
theorem conditionalWrite_spec (s : Store) (id : Nat) (q : Int) (v : Nat)
    (it : Item) (h : s id = some it) :
    (conditionalWrite s id q v = .error .VersionConflict ↔ it.version ≠ v) ∧
    (it.version = v →
      conditionalWrite s id q v =
        .ok (s.upd id ⟨q, it.version + 1⟩, it.version + 1) ∧
      (s.upd id ⟨q, it.version + 1⟩) id = some ⟨q, it.version + 1⟩ ∧
      ∀ j, j ≠ id → (s.upd id ⟨q, it.version + 1⟩) j = s j) := by
  unfold conditionalWrite
  rw [h]
  constructor
  · constructor
    · intro hc hv
      simp [hv] at hc
    · intro hv
      simp [if_neg hv]
  · intro hv
    refine ⟨by simp [hv], by simp [Store.upd], ?_⟩
    intro j hj
    simp [Store.upd, hj]

/-- Witness for C3 at a concrete store. -/
theorem conditionalWrite_spec_witness :
    ((fun j => if j = 1 then some (⟨10, 3⟩ : Item) else none) : Store) 1 =
        some (⟨10, 3⟩ : Item) ∧
    (conditionalWrite (fun j => if j = 1 then some (⟨10, 3⟩ : Item) else none) 1 11 3 =
        .error .VersionConflict ↔ (3 : Nat) ≠ 3) :=
  ⟨rfl, (conditionalWrite_spec
    (fun j => if j = 1 then some (⟨10, 3⟩ : Item) else none) 1 11 3 ⟨10, 3⟩ rfl).1⟩

/-- C9: the naive PUT update check in the lost-update script passes exactly
for status 200 or status 409. -/
theorem naivePutCheck_iff (s : Nat) :
    naivePutCheck s = true ↔ s = 200 ∨ s = 409 := by
  unfold naivePutCheck
  simp [Bool.or_eq_true, beq_iff_eq]

/-! ## Theorems: C7, C8 -/

/-- When every attempt from k through k + budget - 1 fails retriably, the
retry loop exhausts its budget and reports the last attempt index and the
last error. -/
lemma executeAux_all_fail (op : Nat → Except Nat Unit) (retriable : Nat → Bool)
    (err : Nat → Nat) :
    ∀ budget k, 1 ≤ budget →
      (∀ i, k ≤ i → i ≤ k + budget - 1 → op i = .error (err i) ∧ retriable (err i) = true) →
      executeAux op retriable budget k = .exhausted (k + budget - 1) (err (k + budget - 1)) := by
  intro budget
  induction budget with
  | zero => intro k h; omega
  | succ b ih =>
      intro k _ hfail
      have hk := hfail k (le_refl k) (by omega)
      unfold executeAux
      rw [hk.1]
      simp only [hk.2, if_true]
      cases b with
      | zero => simp
      | succ b' =>
          have heq : k + 1 + (b' + 1) - 1 = k + (b' + 1 + 1) - 1 := by omega
          have := ih (k + 1) (by omega) (by
            intro i hi1 hi2
            exact hfail i (by omega) (by omega))
          rw [heq] at this
          exact this

/-- When attempts k through n - 1 fail retriably and attempt n succeeds
within the budget, the retry loop reports success at attempt n. -/
lemma executeAux_succeeds (op : Nat → Except Nat Unit) (retriable : Nat → Bool) :
    ∀ budget k n, 1 ≤ budget → k ≤ n → n ≤ k + budget - 1 →
      (∀ i, k ≤ i → i < n → ∃ e, op i = .error e ∧ retriable e = true) →
      op n = .ok () →
      executeAux op retriable budget k = .success n := by
  intro budget
  induction budget with
  | zero => intro k n h; omega
  | succ b ih =>
      intro k n _ hkn hn hfail hok
      unfold executeAux
      rcases Nat.eq_or_lt_of_le hkn with heq | hlt
      · subst heq
        rw [hok]
      · obtain ⟨e, he, hr⟩ := hfail k (le_refl k) hlt
        rw [he]
        simp only [hr, if_true]
        cases b with
        | zero => omega
        | succ b' =>
            exact ih (k + 1) n (by omega) (by omega) (by omega)
              (fun i hi1 hi2 => hfail i (by omega) hi2) hok

/-- C7: with maxAttempts = 4, an operation failing retriably on attempts 1
through 3 and succeeding on attempt 4 yields overall success reported at
attempt 4; an operation failing retriably on every allowed attempt yields
RetryExhaustedError carrying the last error and attempt count maxAttempts. -/
theorem retryPolicy_attempts_spec (retriable : Nat → Bool) :
    (∀ op : Nat → Except Nat Unit,
      (∀ k, 1 ≤ k → k ≤ 3 → ∃ e, op k = .error e ∧ retriable e = true) →
      op 4 = .ok () →
      RetryPolicy.execute op retriable 4 = .success 4) ∧
    (∀ (op : Nat → Except Nat Unit) (err : Nat → Nat) (m : Nat), 1 ≤ m →
      (∀ k, 1 ≤ k → k ≤ m → op k = .error (err k) ∧ retriable (err k) = true) →
      RetryPolicy.execute op retriable m = .exhausted m (err m)) := by
  constructor
  · intro op hfail hok
    exact executeAux_succeeds op retriable 4 1 4 (by omega) (by omega) (by omega)
      (fun i hi1 hi2 => hfail i hi1 (by omega)) hok
  · intro op err m hm hfail
    have := executeAux_all_fail op retriable err m 1 hm (by
      intro i hi1 hi2
      exact hfail i hi1 (by omega))
    have heq : 1 + m - 1 = m := by omega
    rw [heq] at this
    exact this

/-- Witness for C7 with a concrete operation failing on attempts 1-3 with
error code 7 and succeeding on attempt 4. -/
theorem retryPolicy_attempts_spec_witness :
    RetryPolicy.execute (fun k => if k = 4 then .ok () else .error 7)
      (fun _ => true) 4 = .success 4 :=
  (retryPolicy_attempts_spec (fun _ => true)).1
    (fun k => if k = 4 then .ok () else .error 7)
    (fun k _ hk3 => ⟨7, by simp [show k ≠ 4 by omega], rfl⟩)
    (by simp)

/-- C8: for attempt index k at least 2 and a jitter factor in the half-open
interval from 1/2 to 3/2, the backoff delay is min(baseDelay * 2^(k-2),
maxDelay) scaled by the jitter factor; the un-jittered delay never exceeds
maxDelay, and it doubles with the attempt index until capped at maxDelay. -/
theorem backoffDelay_spec (b m : ℚ) (k : Nat) (j : ℚ)
    (hk : 2 ≤ k) (hj1 : 1 / 2 ≤ j) (hj2 : j < 3 / 2) :
    backoffDelay b m k j = min (b * 2 ^ (k - 2)) m * j ∧
    rawDelay b m k ≤ m ∧
    (b * 2 ^ (k - 2) ≤ m → rawDelay b m (k + 1) = min (2 * rawDelay b m k) m) ∧
    (0 < rawDelay b m k →
      1 / 2 * rawDelay b m k ≤ backoffDelay b m k j ∧
      backoffDelay b m k j < 3 / 2 * rawDelay b m k) := by
  refine ⟨rfl, min_le_right _ _, ?_, ?_⟩
  · intro hcap
    have hmin : rawDelay b m k = b * 2 ^ (k - 2) := min_eq_left hcap
    unfold rawDelay at hmin ⊢
    have hexp : k + 1 - 2 = (k - 2) + 1 := by omega
    rw [hexp, pow_succ, hmin]
    ring_nf
  · intro hpos
    unfold backoffDelay
    constructor
    · calc 1 / 2 * rawDelay b m k = rawDelay b m k * (1 / 2) := by ring
        _ ≤ rawDelay b m k * j := by
            exact mul_le_mul_of_nonneg_left hj1 (le_of_lt hpos)
    · calc rawDelay b m k * j < rawDelay b m k * (3 / 2) := by
            exact mul_lt_mul_of_pos_left hj2 hpos
        _ = 3 / 2 * rawDelay b m k := by ring

/-! ## Theorems: C4, C5 -/

/-- conditionalWrite only ever fails with NotFound or VersionConflict. -/
lemma conditionalWrite_error_cases (s : Store) (id : Nat) (q : Int) (v : Nat)
    (e : LedgerError) (h : conditionalWrite s id q v = .error e) :
    e = .NotFound ∨ e = .VersionConflict := by
  unfold conditionalWrite at h
  split at h
  · injection h with h'
    exact .inl h'.symm
  · split at h
    · cases h
    · injection h with h'
      exact .inr h'.symm

/-- A successful conditionalWrite found the expected version and installed
the new quantity with the version bumped by 1. -/
lemma conditionalWrite_ok (s : Store) (id : Nat) (q : Int) (v : Nat)
    (s' : Store) (nv : Nat) (h : conditionalWrite s id q v = .ok (s', nv)) :
    ∃ it, s id = some it ∧ it.version = v ∧ nv = v + 1 ∧
      s' = s.upd id ⟨q, v + 1⟩ := by
  unfold conditionalWrite at h
  split at h
  · cases h
  · rename_i it hs
    split at h
    · rename_i hv
      injection h with h'
      rw [Prod.mk.injEq] at h'
      obtain ⟨h1, h2⟩ := h'
      exact ⟨it, hs, hv, by rw [← h2, hv], by rw [← h1, hv]⟩
    · cases h

/-- The retry loop performs at most as many cycles as it has fuel. -/
lemma incrementAtomicAux_cycles_le (env : Nat → Store → Store) (id : Nat)
    (delta : Int) :
    ∀ fuel cycle s r n, incrementAtomicAux env id delta fuel cycle s = (r, n) →
      n ≤ fuel := by
  intro fuel
  induction fuel with
  | zero =>
      intro cycle s r n h
      unfold incrementAtomicAux at h
      injection h with _ h2
      omega
  | succ f ih =>
      intro cycle s r n h
      unfold incrementAtomicAux at h
      split at h
      · injection h with _ h2
        omega
      · split at h
        · injection h with _ h2
          omega
        · split at h
          · injection h with _ h2
            omega
          · cases hrec : incrementAtomicAux env id delta f (cycle + 1)
                (env cycle s) with
            | mk r0 n0 =>
                rw [hrec] at h
                simp only at h
                injection h with _ h2
                have := ih (cycle + 1) (env cycle s) r0 n0 hrec
                omega
          · injection h with _ h2
            omega

/-- The retry loop surfaces UpdateExhausted only when every unit of fuel
was consumed by a VersionConflict. -/
lemma incrementAtomicAux_exhausted (env : Nat → Store → Store) (id : Nat)
    (delta : Int) :
    ∀ fuel cycle s n, incrementAtomicAux env id delta fuel cycle s =
        (.error .UpdateExhausted, n) →
      n = fuel := by
  intro fuel
  induction fuel with
  | zero =>
      intro cycle s n h
      unfold incrementAtomicAux at h
      injection h with _ h2
      omega
  | succ f ih =>
      intro cycle s n h
      unfold incrementAtomicAux at h
      split at h
      · injection h with h1
        cases h1
      · split at h
        · injection h with h1
          cases h1
        · split at h
          · injection h with h1
            cases h1
          · cases hrec : incrementAtomicAux env id delta f (cycle + 1)
                (env cycle s) with
            | mk r0 n0 =>
                rw [hrec] at h
                simp only at h
                injection h with h1 h2
                rw [h1] at hrec
                have := ih (cycle + 1) (env cycle s) n0 hrec
                omega
          · rename_i e hne heq
            injection h with h1
            rw [h1] at heq
            rcases conditionalWrite_error_cases _ _ _ _ _ heq with h2 | h2 <;>
              cases h2

/-- A successful pass through the retry loop preserves non-negativity of
every stored quantity, provided the interfering environment does. -/
lemma incrementAtomicAux_nonneg (env : Nat → Store → Store) (id : Nat)
    (delta : Int) (henv : ∀ n t, Store.nonneg t → Store.nonneg (env n t)) :
    ∀ fuel cycle s s' v n, Store.nonneg s →
      incrementAtomicAux env id delta fuel cycle s = (.ok (s', v), n) →
      Store.nonneg s' := by
  intro fuel
  induction fuel with
  | zero =>
      intro cycle s s' v n _ h
      unfold incrementAtomicAux at h
      injection h with h1
      cases h1
  | succ f ih =>
      intro cycle s s' v n hs h
      unfold incrementAtomicAux at h
      split at h
      · injection h with h1
        cases h1
      · rename_i it hsid
        split at h
        · injection h with h1
          cases h1
        · rename_i hneg
          split at h
          · rename_i r0 heq
            injection h with h1
            injection h1 with h1'
            rw [h1'] at heq
            obtain ⟨it2, _, _, _, hshape⟩ := conditionalWrite_ok _ _ _ _ _ _ heq
            intro j itj hj
            rw [hshape] at hj
            unfold Store.upd at hj
            by_cases hjid : j = id
            · rw [if_pos hjid] at hj
              injection hj with hj'
              rw [← hj']
              simpa using not_lt.mp hneg
            · rw [if_neg hjid] at hj
              exact henv cycle s hs j itj hj
          · cases hrec : incrementAtomicAux env id delta f (cycle + 1)
                (env cycle s) with
            | mk r0 n0 =>
                rw [hrec] at h
                simp only at h
                injection h with h1 h2
                rw [h1] at hrec
                exact ih (cycle + 1) (env cycle s) s' v n0
                  (henv cycle s hs) hrec
          · injection h with h1
            cases h1

/-- When the first read already finds the item and a new quantity that
would be negative, a cycle of the retry loop rejects with InvalidQuantity
immediately. -/
lemma incrementAtomicAux_invalid (env : Nat → Store → Store) (id : Nat)
    (delta : Int) (f cycle : Nat) (s : Store) (it : Item)
    (hs : s id = some it) (hneg : it.quantity + delta < 0) :
    incrementAtomicAux env id delta (f + 1) cycle s =
      (.error .InvalidQuantity, 1) := by
  unfold incrementAtomicAux
  split
  · rename_i heq
    rw [hs] at heq
    cases heq
  · rename_i it2 heq
    rw [hs] at heq
    injection heq with heq'
    rw [← heq']
    rw [if_pos hneg]

/-- C4: incrementAtomic performs at most 5 read/compute/conditionalWrite
cycles and surfaces UpdateExhausted only after all 5 cycles hit a
VersionConflict, while incrementNaive performs its single cycle and
surfaces a VersionConflict directly whenever the stored version moved
between its read and its write, and can never report UpdateExhausted. -/
theorem incrementAtomic_retry_spec :
    (∀ (env : Nat → Store → Store) (s : Store) (id : Nat) (delta : Int),
      incrementAtomicCycles env s id delta ≤ atomicRetryBound) ∧
    (∀ (env : Nat → Store → Store) (s : Store) (id : Nat) (delta : Int),
      incrementAtomic env s id delta = .error .UpdateExhausted →
      incrementAtomicCycles env s id delta = atomicRetryBound) ∧
    (∀ (envN : Store → Store) (s : Store) (id : Nat) (delta : Int)
        (it it' : Item), s id = some it → ¬ it.quantity + delta < 0 →
      (envN s) id = some it' → it'.version ≠ it.version →
      incrementNaive envN s id delta = .error .VersionConflict) ∧
    (∀ (envN : Store → Store) (s : Store) (id : Nat) (delta : Int),
      incrementNaive envN s id delta ≠ .error .UpdateExhausted) := by
  refine ⟨?_, ?_, ?_, ?_⟩
  · intro env s id delta
    unfold incrementAtomicCycles
    cases haux : incrementAtomicAux env id delta atomicRetryBound 0 s with
    | mk r n =>
        exact incrementAtomicAux_cycles_le env id delta atomicRetryBound 0 s r n haux
  · intro env s id delta h
    unfold incrementAtomic at h
    unfold incrementAtomicCycles
    cases haux : incrementAtomicAux env id delta atomicRetryBound 0 s with
    | mk r n =>
        rw [haux] at h
        simp only at h
        rw [h] at haux
        exact incrementAtomicAux_exhausted env id delta atomicRetryBound 0 s n haux
  · intro envN s id delta it it' hs hneg henv hver
    unfold incrementNaive incrementCycle
    split
    · rename_i heq
      rw [hs] at heq
      cases heq
    · rename_i it2 heq
      rw [hs] at heq
      injection heq with heq'
      rw [← heq']
      rw [if_neg hneg]
      unfold conditionalWrite
      split
      · rename_i heq2
        rw [henv] at heq2
        cases heq2
      · rename_i it3 heq2
        rw [henv] at heq2
        injection heq2 with heq2'
        rw [← heq2']
        rw [if_neg (fun hc => hver hc)]
  · intro envN s id delta h
    unfold incrementNaive incrementCycle at h
    split at h
    · cases h
    · split at h
      · cases h
      · rcases conditionalWrite_error_cases _ _ _ _ _ h with h1 | h1 <;> cases h1

/-- Witness for C4: under an environment that always moves the version,
incrementAtomic exhausts all 5 cycles and incrementNaive surfaces the
conflict directly. -/
theorem incrementAtomic_retry_spec_witness :
    incrementAtomicCycles envBumpW storeW 1 1 = atomicRetryBound ∧
    incrementNaive (envBumpW 0) storeW 1 1 = .error .VersionConflict :=
  ⟨incrementAtomic_retry_spec.2.1 envBumpW storeW 1 1 rfl,
   incrementAtomic_retry_spec.2.2.1 (envBumpW 0) storeW 1 1 ⟨10, 1⟩ ⟨10, 2⟩
     rfl (by norm_num) rfl (by norm_num)⟩

/-- C5: an increment whose new quantity would be negative fails with
InvalidQuantity on both paths without issuing any write, and any increment
that does commit leaves every stored quantity non-negative whenever the
starting store and the interfering environment do. -/
theorem increment_invalidQuantity_spec :
    (∀ (envN : Store → Store) (env : Nat → Store → Store) (s : Store)
        (id : Nat) (delta : Int) (it : Item),
      s id = some it → it.quantity + delta < 0 →
      incrementNaive envN s id delta = .error .InvalidQuantity ∧
      incrementAtomic env s id delta = .error .InvalidQuantity) ∧
    (∀ (env : Nat → Store → Store) (s : Store) (id : Nat) (delta : Int)
        (s' : Store) (v : Nat),
      Store.nonneg s → (∀ n t, Store.nonneg t → Store.nonneg (env n t)) →
      incrementAtomic env s id delta = .ok (s', v) → Store.nonneg s') ∧
    (∀ (envN : Store → Store) (s : Store) (id : Nat) (delta : Int)
        (s' : Store) (v : Nat),
      Store.nonneg s → (∀ t, Store.nonneg t → Store.nonneg (envN t)) →
      incrementNaive envN s id delta = .ok (s', v) → Store.nonneg s') := by
  refine ⟨?_, ?_, ?_⟩
  · intro envN env s id delta it hs hneg
    constructor
    · unfold incrementNaive incrementCycle
      split
      · rename_i heq
        rw [hs] at heq
        cases heq
      · rename_i it2 heq
        rw [hs] at heq
        injection heq with heq'
        rw [← heq']
        rw [if_pos hneg]
    · unfold incrementAtomic
      rw [show atomicRetryBound = 4 + 1 from rfl]
      rw [incrementAtomicAux_invalid env id delta 4 0 s it hs hneg]
  · intro env s id delta s' v hs henv h
    unfold incrementAtomic at h
    cases haux : incrementAtomicAux env id delta atomicRetryBound 0 s with
    | mk r n =>
        rw [haux] at h
        simp only at h
        rw [h] at haux
        exact incrementAtomicAux_nonneg env id delta henv atomicRetryBound 0 s
          s' v n hs haux
  · intro envN s id delta s' v hs henv h
    unfold incrementNaive incrementCycle at h
    split at h
    · cases h
    · rename_i it hsid
      split at h
      · cases h
      · rename_i hneg
        obtain ⟨it2, _, _, _, hshape⟩ := conditionalWrite_ok _ _ _ _ _ _ h
        intro j itj hj
        rw [hshape] at hj
        unfold Store.upd at hj
        by_cases hjid : j = id
        · rw [if_pos hjid] at hj
          injection hj with hj'
          rw [← hj']
          simpa using not_lt.mp hneg
        · rw [if_neg hjid] at hj
          exact henv s hs j itj hj

/-- Witness for C5: a delta of -11 against quantity 10 is rejected with
InvalidQuantity on both paths. -/
theorem increment_invalidQuantity_spec_witness :
    incrementNaive (envBumpW 0) storeW 1 (-11) = .error .InvalidQuantity ∧
    incrementAtomic envBumpW storeW 1 (-11) = .error .InvalidQuantity :=
  increment_invalidQuantity_spec.1 (envBumpW 0) envBumpW storeW 1 (-11) ⟨10, 1⟩
    rfl (by norm_num)

/-! ## Theorems: C2, C6 -/

/-- C2: the CircuitBreaker step relation: reaching failureThreshold
consecutive failures while Closed opens the breaker and records openedAt;
while Open and not yet cooled down every call is rejected and fetchPrice
makes zero downstream attempts; once the cool-down has elapsed the next
call moves the breaker to HalfOpen as the single admitted trial, further
callers being rejected while that trial is in flight; a HalfOpen trial
success closes the breaker with the failure counter reset to 0; a HalfOpen
trial failure re-opens it with a fresh openedAt. -/
theorem circuitBreaker_transitions_spec (b : Breaker) (now : Nat) :
    (b.state = .Closed → b.failures + 1 = b.failureThreshold →
      (recordOutcome b now false).state = .Open ∧
      (recordOutcome b now false).openedAt = now) ∧
    (b.state = .Open → now - b.openedAt < b.resetTimeout →
      admitCall b now = (b, false) ∧
      ∀ (maxAttempts : Nat) (down : Nat → Bool),
        (fetchPrice b now maxAttempts down).2.attempts = 0 ∧
        (fetchPrice b now maxAttempts down).2.ok = false) ∧
    (b.state = .Open → b.resetTimeout ≤ now - b.openedAt →
      (admitCall b now).2 = true ∧ (admitCall b now).1.state = .HalfOpen ∧
      (admitCall b now).1.trialInFlight = true) ∧
    (b.state = .HalfOpen → b.trialInFlight = true →
      admitCall b now = (b, false)) ∧
    (b.state = .HalfOpen →
      (recordOutcome b now true).state = .Closed ∧
      (recordOutcome b now true).failures = 0) ∧
    (b.state = .HalfOpen →
      (recordOutcome b now false).state = .Open ∧
      (recordOutcome b now false).openedAt = now) := by
  refine ⟨?_, ?_, ?_, ?_, ?_, ?_⟩
  · intro h1 h2
    unfold recordOutcome
    rw [h1]
    have hth : b.failureThreshold ≤ b.failures + 1 := by omega
    simp [hth]
  · intro h1 h2
    have hgate : admitCall b now = (b, false) := by
      unfold admitCall
      rw [h1]
      rw [if_neg (by omega)]
    refine ⟨hgate, ?_⟩
    intro maxAttempts down
    unfold fetchPrice
    rw [hgate]
    simp
  · intro h1 h2
    unfold admitCall
    rw [h1]
    rw [if_pos h2]
    simp
  · intro h1 h2
    unfold admitCall
    rw [h1, h2]
    simp
  · intro h1
    unfold recordOutcome
    rw [h1]
    simp
  · intro h1
    unfold recordOutcome
    rw [h1]
    simp

/-- Witness for C2: a breaker with threshold 3 at 2 consecutive failures
opens on the third failure at time 7. -/
theorem circuitBreaker_transitions_spec_witness :
    (recordOutcome ⟨3, 15, .Closed, 2, 0, false⟩ 7 false).state = .Open ∧
    (recordOutcome ⟨3, 15, .Closed, 2, 0, false⟩ 7 false).openedAt = 7 :=
  (circuitBreaker_transitions_spec ⟨3, 15, .Closed, 2, 0, false⟩ 7).1 rfl rfl

/-- C6: while the breaker is HalfOpen, fetchPrice makes at most one
downstream attempt regardless of the RetryPolicy's configured
maxAttempts. -/
theorem fetchPrice_halfOpen_single_attempt (b : Breaker) (now maxAttempts : Nat)
    (down : Nat → Bool) (h : b.state = .HalfOpen) :
    (fetchPrice b now maxAttempts down).2.attempts ≤ 1 := by
  unfold fetchPrice admitCall
  rw [h]
  cases htf : b.trialInFlight with
  | true =>
      simp
  | false =>
      simp only [Bool.false_eq_true, if_false, if_true]
      unfold retryLoopBreaker
      cases hd : down 1 <;> simp

/-- Witness for C6: a HalfOpen breaker with no trial in flight admits a
single attempt even with a budget of 4. -/
theorem fetchPrice_halfOpen_single_attempt_witness :
    (fetchPrice ⟨3, 15, .HalfOpen, 0, 20, false⟩ 40 4 (fun _ => true)).2.attempts ≤ 1 :=
  fetchPrice_halfOpen_single_attempt ⟨3, 15, .HalfOpen, 0, 20, false⟩ 40 4
    (fun _ => true) rfl

/-! ## Theorems: C1 -/

/-- Counting committed writers across the acting thread's position. -/
lemma countCommitted_split (l₁ l₂ : List TState) (t : TState) :
    countCommitted (l₁ ++ t :: l₂) =
      countCommitted l₁ + countCommitted l₂ +
        (if t = .finished .committedWrite then 1 else 0) := by
  unfold countCommitted
  rw [List.countP_append, List.countP_cons]
  simp only [decide_eq_true_eq]
  omega

/-- One interleaved step preserves the machine invariant. -/
lemma LInv_step (q0 : Int) (hq0 : 0 ≤ q0) {c c' : LConfig}
    (hstep : CStep c c') (hinv : LInv q0 c) : LInv q0 c' := by
  obtain ⟨h1, h2, h3⟩ := hinv
  cases hstep with
  | read q v l₁ l₂ f hq =>
      have h1' : q = q0 + (countCommitted (l₁ ++ .running (f + 1) :: l₂) : Int) := h1
      refine ⟨?_, ?_, ?_⟩
      · show q = q0 + (countCommitted (l₁ ++ .casing f v q :: l₂) : Int)
        rw [countCommitted_split] at h1' ⊢
        simpa using h1'
      · intro t ht
        simp only [List.mem_append, List.mem_cons] at ht
        rcases ht with ht | ht | ht
        · exact h2 t (by simp only [List.mem_append, List.mem_cons]; exact .inl ht)
        · subst ht
          simp
        · exact h2 t
            (by simp only [List.mem_append, List.mem_cons]; exact .inr (.inr ht))
      · intro f' sv sq' hm
        show sv ≤ v ∧ (sv = v → sq' = q)
        simp only [List.mem_append, List.mem_cons] at hm
        rcases hm with hm | hm | hm
        · exact h3 f' sv sq'
            (by simp only [List.mem_append, List.mem_cons]; exact .inl hm)
        · injection hm with e1 e2 e3
          exact ⟨le_of_eq e2, fun _ => e3⟩
        · exact h3 f' sv sq'
            (by simp only [List.mem_append, List.mem_cons]; exact .inr (.inr hm))
  | readInvalid q v l₁ l₂ f hq =>
      exfalso
      have h1' : q = q0 + (countCommitted (l₁ ++ .running (f + 1) :: l₂) : Int) := h1
      omega
  | exhaust q v l₁ l₂ =>
      have h1' : q = q0 + (countCommitted (l₁ ++ .running 0 :: l₂) : Int) := h1
      refine ⟨?_, ?_, ?_⟩
      · show q = q0 + (countCommitted (l₁ ++ .finished .retriesExhausted :: l₂) : Int)
        rw [countCommitted_split] at h1' ⊢
        simpa using h1'
      · intro t ht
        simp only [List.mem_append, List.mem_cons] at ht
        rcases ht with ht | ht | ht
        · exact h2 t (by simp only [List.mem_append, List.mem_cons]; exact .inl ht)
        · subst ht
          simp
        · exact h2 t
            (by simp only [List.mem_append, List.mem_cons]; exact .inr (.inr ht))
      · intro f' sv sq' hm
        simp only [List.mem_append, List.mem_cons] at hm
        rcases hm with hm | hm | hm
        · exact h3 f' sv sq'
            (by simp only [List.mem_append, List.mem_cons]; exact .inl hm)
        · cases hm
        · exact h3 f' sv sq'
            (by simp only [List.mem_append, List.mem_cons]; exact .inr (.inr hm))
  | casOk q v l₁ l₂ f sq =>
      have h1' : q = q0 + (countCommitted (l₁ ++ .casing f v sq :: l₂) : Int) := h1
      have hmid : (TState.casing f v sq) ∈ l₁ ++ .casing f v sq :: l₂ :=
        List.mem_append_right _ (List.mem_cons_self _ _)
      have hsqq : sq = q := (h3 f v sq hmid).2 rfl
      refine ⟨?_, ?_, ?_⟩
      · show sq + 1 = q0 + (countCommitted (l₁ ++ .finished .committedWrite :: l₂) : Int)
        rw [countCommitted_split] at h1' ⊢
        simp at h1' ⊢
        omega
      · intro t ht
        simp only [List.mem_append, List.mem_cons] at ht
        rcases ht with ht | ht | ht
        · exact h2 t (by simp only [List.mem_append, List.mem_cons]; exact .inl ht)
        · subst ht
          simp
        · exact h2 t
            (by simp only [List.mem_append, List.mem_cons]; exact .inr (.inr ht))
      · intro f' sv sq' hm
        show sv ≤ v + 1 ∧ (sv = v + 1 → sq' = sq + 1)
        simp only [List.mem_append, List.mem_cons] at hm
        rcases hm with hm | hm | hm
        · have hold : sv ≤ v ∧ (sv = v → sq' = q) := h3 f' sv sq'
            (by simp only [List.mem_append, List.mem_cons]; exact .inl hm)
          have := hold.1
          refine ⟨by omega, ?_⟩
          intro heq
          omega
        · cases hm
        · have hold : sv ≤ v ∧ (sv = v → sq' = q) := h3 f' sv sq'
            (by simp only [List.mem_append, List.mem_cons]; exact .inr (.inr hm))
          have := hold.1
          refine ⟨by omega, ?_⟩
          intro heq
          omega
  | casFail q v l₁ l₂ f sv0 sq0 hv =>
      have h1' : q = q0 + (countCommitted (l₁ ++ .casing f sv0 sq0 :: l₂) : Int) := h1
      refine ⟨?_, ?_, ?_⟩
      · show q = q0 + (countCommitted (l₁ ++ .running f :: l₂) : Int)
        rw [countCommitted_split] at h1' ⊢
        simpa using h1'
      · intro t ht
        simp only [List.mem_append, List.mem_cons] at ht
        rcases ht with ht | ht | ht
        · exact h2 t (by simp only [List.mem_append, List.mem_cons]; exact .inl ht)
        · subst ht
          simp
        · exact h2 t
            (by simp only [List.mem_append, List.mem_cons]; exact .inr (.inr ht))
      · intro f' sv sq' hm
        simp only [List.mem_append, List.mem_cons] at hm
        rcases hm with hm | hm | hm
        · exact h3 f' sv sq'
            (by simp only [List.mem_append, List.mem_cons]; exact .inl hm)
        · cases hm
        · exact h3 f' sv sq'
            (by simp only [List.mem_append, List.mem_cons]; exact .inr (.inr hm))

/-- The machine invariant holds in every configuration reachable from the
initial one. -/
lemma LInv_reach (q0 : Int) (v0 : Nat) (n : Nat) (hq0 : 0 ≤ q0) (c : LConfig)
    (h : Relation.ReflTransGen CStep (initLConfig q0 v0 n) c) : LInv q0 c := by
  induction h with
  | refl =>
      refine ⟨?_, ?_, ?_⟩
      · show q0 = q0 + (countCommitted (List.replicate n (.running atomicRetryBound)) : Int)
        unfold countCommitted
        rw [List.countP_eq_zero.mpr]
        · simp
        · intro t ht
          rw [List.eq_of_mem_replicate ht]
          simp
      · intro t ht
        rw [List.eq_of_mem_replicate ht]
        simp
      · intro f sv sq hm
        have := List.eq_of_mem_replicate hm
        cases this
  | tail _ hstep ih =>
      exact LInv_step q0 hq0 hstep ih

/-- C1: along every interleaving of concurrently running
incrementAtomic(id, +1) calls that ends with all calls finished, the final
stored quantity equals the initial quantity plus the number of calls that
did not exhaust their retry bound. -/
theorem incrementAtomic_no_lost_updates (q0 : Int) (v0 : Nat) (n : Nat)
    (c : LConfig) (hq0 : 0 ≤ q0)
    (hreach : Relation.ReflTransGen CStep (initLConfig q0 v0 n) c)
    (hdone : ∀ t ∈ c.threads, ∃ r, t = .finished r) :
    c.qty = q0 +
      (c.threads.countP (fun t => decide (t ≠ .finished .retriesExhausted)) : Int) := by
  obtain ⟨h1, h2, _⟩ := LInv_reach q0 v0 n hq0 c hreach
  rw [h1]
  congr 1
  norm_cast
  unfold countCommitted
  apply List.countP_congr
  intro t ht
  obtain ⟨r, rfl⟩ := hdone t ht
  have hni := h2 _ ht
  cases r with
  | committedWrite => simp
  | retriesExhausted => simp
  | invalidQty => exact absurd rfl hni

/-- Witness for C1: a single caller on an item starting at quantity 0,
version 1 reads, commits, and the final quantity is 0 plus the one call
that did not exhaust its retries. -/
theorem incrementAtomic_no_lost_updates_witness :
    (⟨1, 2, [.finished .committedWrite]⟩ : LConfig).qty = 0 +
      ((⟨1, 2, [.finished .committedWrite]⟩ : LConfig).threads.countP
        (fun t => decide (t ≠ .finished .retriesExhausted)) : Int) :=
  incrementAtomic_no_lost_updates 0 1 1 ⟨1, 2, [.finished .committedWrite]⟩
    (by norm_num)
    (by
      have s1 : CStep (initLConfig 0 1 1) ⟨0, 1, [.casing 4 1 0]⟩ :=
        CStep.read 0 1 [] [] 4 (by norm_num)
      have s2 : CStep ⟨0, 1, [.casing 4 1 0]⟩ ⟨1, 2, [.finished .committedWrite]⟩ :=
        CStep.casOk 0 1 [] [] 4 0
      exact Relation.ReflTransGen.head s1 (Relation.ReflTransGen.single s2))
    (by
      intro t ht
      simp only [List.mem_singleton] at ht
      exact ⟨.committedWrite, ht⟩)

/-! ## Theorems: C10 -/

/-- Any list the randomUniqueIds loop returns has exactly count pairwise
distinct entries, each between 1 and maxId. -/
lemma randomUniqueIdsAux_some (draw : Nat → Nat) (count maxId : Nat)
    (hdraw : ∀ n, draw n < maxId) :
    ∀ fuel step pool l, pool.Nodup → (∀ x ∈ pool, 1 ≤ x ∧ x ≤ maxId) →
      pool.length ≤ count →
      randomUniqueIdsAux draw count maxId fuel step pool = some l →
      l.length = count ∧ l.Nodup ∧ ∀ x ∈ l, 1 ≤ x ∧ x ≤ maxId := by
  intro fuel
  induction fuel with
  | zero =>
      intro step pool l hnd hrange hlen h
      unfold randomUniqueIdsAux at h
      split at h
      · rename_i hc
        injection h with h'
        subst h'
        exact ⟨by omega, hnd, hrange⟩
      · cases h
  | succ f ih =>
      intro step pool l hnd hrange hlen h
      unfold randomUniqueIdsAux at h
      split at h
      · rename_i hc
        injection h with h'
        subst h'
        exact ⟨by omega, hnd, hrange⟩
      · rename_i hc
        by_cases hmem : draw step + 1 ∈ pool
        · rw [if_pos hmem] at h
          exact ih (step + 1) pool l hnd hrange hlen h
        · rw [if_neg hmem] at h
          refine ih (step + 1) (pool ++ [draw step + 1]) l ?_ ?_ ?_ h
          · simp [List.nodup_append, hnd, hmem]
          · intro x hx
            rcases List.mem_append.mp hx with hx | hx
            · exact hrange x hx
            · rw [List.mem_singleton] at hx
              subst hx
              exact ⟨by omega, by have := hdraw step; omega⟩
          · simp only [List.length_append, List.length_singleton]
            omega

/-- With count distinct ids requested from a range of only maxId < count
values, the pool can never reach count, so the loop never exits. -/
lemma randomUniqueIdsAux_none (draw : Nat → Nat) (count maxId : Nat)
    (hdraw : ∀ n, draw n < maxId) (hbig : maxId < count) :
    ∀ fuel step pool, pool.Nodup → (∀ x ∈ pool, 1 ≤ x ∧ x ≤ maxId) →
      randomUniqueIdsAux draw count maxId fuel step pool = none := by
  have hshort : ∀ pool : List Nat, pool.Nodup → (∀ x ∈ pool, 1 ≤ x ∧ x ≤ maxId) →
      pool.length ≤ maxId := by
    intro pool hnd hrange
    have hsub : pool.toFinset ⊆ Finset.Icc 1 maxId := by
      intro x hx
      rw [List.mem_toFinset] at hx
      rw [Finset.mem_Icc]
      exact hrange x hx
    have := Finset.card_le_card hsub
    rw [List.toFinset_card_of_nodup hnd, Nat.card_Icc] at this
    omega
  intro fuel
  induction fuel with
  | zero =>
      intro step pool hnd hrange
      unfold randomUniqueIdsAux
      rw [if_neg (by have := hshort pool hnd hrange; omega)]
  | succ f ih =>
      intro step pool hnd hrange
      unfold randomUniqueIdsAux
      rw [if_neg (by have := hshort pool hnd hrange; omega)]
      by_cases hmem : draw step + 1 ∈ pool
      · rw [if_pos hmem]
        exact ih (step + 1) pool hnd hrange
      · rw [if_neg hmem]
        refine ih (step + 1) (pool ++ [draw step + 1]) ?_ ?_
        · simp [List.nodup_append, hnd, hmem]
        · intro x hx
          rcases List.mem_append.mp hx with hx | hx
          · exact hrange x hx
          · rw [List.mem_singleton] at hx
            subst hx
            exact ⟨by omega, by have := hdraw step; omega⟩

/-- When the remaining draws provide enough distinct values to fill the
pool up to count, the loop exits with a result. -/
lemma randomUniqueIdsAux_terminates (draw : Nat → Nat) (count maxId : Nat) :
    ∀ fuel step pool, pool.Nodup → pool.length ≤ count →
      count ≤ (pool.toFinset ∪
        (Finset.Ico step (step + fuel)).image (fun n => draw n + 1)).card →
      ∃ l, randomUniqueIdsAux draw count maxId fuel step pool = some l := by
  intro fuel
  induction fuel with
  | zero =>
      intro step pool hnd _ hcard
      rw [Nat.add_zero, Finset.Ico_self, Finset.image_empty,
        Finset.union_empty, List.toFinset_card_of_nodup hnd] at hcard
      exact ⟨pool, by unfold randomUniqueIdsAux; rw [if_pos hcard]⟩
  | succ f ih =>
      intro step pool hnd hlen hcard
      unfold randomUniqueIdsAux
      by_cases hc : count ≤ pool.length
      · exact ⟨pool, by rw [if_pos hc]⟩
      · rw [if_neg hc]
        by_cases hmem : draw step + 1 ∈ pool
        · rw [if_pos hmem]
          refine ih (step + 1) pool hnd hlen (le_trans hcard (Finset.card_le_card ?_))
          intro x hx
          simp only [Finset.mem_union, List.mem_toFinset, Finset.mem_image,
            Finset.mem_Ico] at hx ⊢
          rcases hx with hx | ⟨n, ⟨hn1, hn2⟩, hxe⟩
          · exact .inl hx
          · by_cases hns : n = step
            · subst hns
              exact .inl (hxe ▸ hmem)
            · exact .inr ⟨n, ⟨by omega, by omega⟩, hxe⟩
        · rw [if_neg hmem]
          refine ih (step + 1) (pool ++ [draw step + 1])
            (by simp [List.nodup_append, hnd, hmem])
            (by simp only [List.length_append, List.length_singleton]; omega)
            (le_trans hcard (Finset.card_le_card ?_))
          intro x hx
          simp only [Finset.mem_union, List.mem_toFinset, Finset.mem_image,
            Finset.mem_Ico, List.mem_append, List.mem_singleton] at hx ⊢
          rcases hx with hx | ⟨n, ⟨hn1, hn2⟩, hxe⟩
          · exact .inl (.inl hx)
          · by_cases hns : n = step
            · subst hns
              exact .inl (.inr hxe.symm)
            · exact .inr ⟨n, ⟨by omega, by omega⟩, hxe⟩

/-- C10: every run of randomUniqueIds that returns does so with exactly
count pairwise distinct ids in 1..maxId; when count exceeds maxId the loop
can never exit, whatever the draws and however long it runs; and whenever
the first fuel draws contain at least count distinct values the loop does
return, which for count at most maxId is what the random stream eventually
provides. -/
theorem randomUniqueIds_spec (draw : Nat → Nat) (count maxId fuel : Nat)
    (hdraw : ∀ n, draw n < maxId) :
    (∀ l, randomUniqueIds draw count maxId fuel = some l →
      l.length = count ∧ l.Nodup ∧ ∀ x ∈ l, 1 ≤ x ∧ x ≤ maxId) ∧
    (maxId < count → randomUniqueIds draw count maxId fuel = none) ∧
    (count ≤ ((Finset.Ico 0 fuel).image (fun n => draw n + 1)).card →
      ∃ l, randomUniqueIds draw count maxId fuel = some l) := by
  refine ⟨?_, ?_, ?_⟩
  · intro l h
    exact randomUniqueIdsAux_some draw count maxId hdraw fuel 0 [] l
      (by simp) (by simp) (by simp) h
  · intro hbig
    exact randomUniqueIdsAux_none draw count maxId hdraw hbig fuel 0 []
      (by simp) (by simp)
  · intro hcard
    refine randomUniqueIdsAux_terminates draw count maxId fuel 0 []
      (by simp) (by simp) ?_
    simpa using hcard

/-- Witness for C10: drawing modulo 5 fills 3 unique ids out of 30000
within 3 draws, while 7 unique ids can never be produced from a range of
only 5. -/
theorem randomUniqueIds_spec_witness :
    (∃ l, randomUniqueIds (fun n => n % 5) 3 5 3 = some l) ∧
    randomUniqueIds (fun n => n % 5) 7 5 10 = none :=
  ⟨(randomUniqueIds_spec (fun n => n % 5) 3 5 3
      (fun n => Nat.mod_lt n (by norm_num))).2.2 (by decide),
   (randomUniqueIds_spec (fun n => n % 5) 7 5 10
      (fun n => Nat.mod_lt n (by norm_num))).2.1 (by norm_num)⟩

/-- Witness for C8 at baseDelay 100, maxDelay 2000, attempt 3, jitter 1. -/
theorem backoffDelay_spec_witness :
    backoffDelay 100 2000 3 1 = min ((100 : ℚ) * 2 ^ (3 - 2)) 2000 * 1 ∧
    rawDelay 100 2000 3 ≤ 2000 ∧
    ((100 : ℚ) * 2 ^ (3 - 2) ≤ 2000 →
      rawDelay 100 2000 (3 + 1) = min (2 * rawDelay 100 2000 3) 2000) ∧
    (0 < rawDelay 100 2000 3 →
      1 / 2 * rawDelay 100 2000 3 ≤ backoffDelay 100 2000 3 1 ∧
      backoffDelay 100 2000 3 1 < 3 / 2 * rawDelay 100 2000 3) :=
  backoffDelay_spec 100 2000 3 1 (by omega) (by norm_num) (by norm_num)

end KTPM
